import Mathlib

/-!
Verification of the Reciprocal Rank Fusion (RRF) core of the repository.

The source is `reciprocal_rank_fusion` in `src/server/py/rag_fusion.py`
(returning `(document, score)` pairs) and in
`src/server/py/reciprocal_rank_fusion.py` (returning documents only), plus
the `main` entry point of the latter file that validates stdin input.

Embedding conventions:
* Documents are an opaque type `D`; the external `langchain.load.dumps`
  serialization is an opaque parameter `dumps : D → K` producing canonical
  keys, and `langchain.load.loads` is an opaque parameter `loads : K → D`.
* Python's insertion-ordered `dict` is an association list `List (K × ℚ)`
  where a fresh key is appended at the end, exactly as dict insertion does.
* Python float scores are modelled as exact rationals `ℚ`; the spec's exact
  score formulas are only meaningful in exact arithmetic.
* `sorted(..., key=lambda x: x[1], reverse=True)` is Python's stable sort
  in descending score order; it is modelled by `List.mergeSort` (stable)
  with the boolean order `scoreLE a b = (b.2 ≤ a.2)`.
-/

set_option autoImplicit false
set_option linter.unusedSectionVars false

namespace RRF

variable {D K : Type} [DecidableEq K]

/-- An insertion-ordered score map, the model of the Python dict
`fused_scores`: keys in first-insertion order, one entry per key. -/
abbrev ScoreMap (K : Type) := List (K × ℚ)

/-- Model of the dict lookup `fused_scores[doc_str]` (first entry wins;
the map never holds duplicate keys). -/
def getScore : ScoreMap K → K → Option ℚ
  | [], _ => none
  | (k, v) :: rest, key => if k = key then some v else getScore rest key

/-- The accumulated score of `key`, defaulting to `0` when absent. -/
def score0 (m : ScoreMap K) (key : K) : ℚ :=
  (getScore m key).getD 0

/-- The keys of the map, in insertion order (Python dict iteration order). -/
def keys (m : ScoreMap K) : List K :=
  m.map Prod.fst

/-- Model of the body
`if doc_str not in fused_scores: fused_scores[doc_str] = 0`
followed by `fused_scores[doc_str] += c`.
(The source's `previous_score = fused_scores[doc_str]` binding is dead code
and has no semantic effect.) -/
def addScore (m : ScoreMap K) (key : K) (c : ℚ) : ScoreMap K :=
  let m' := if key ∈ keys m then m else m ++ [(key, 0)]
  m'.map (fun p => if p.1 = key then (p.1, p.2 + c) else p)

/-- One step of the inner loop:
`fused_scores[dumps(doc)] += 1 / (rank + k)` at entry `(rank, doc)`. -/
def step (dumps : D → K) (k : ℚ) (m : ScoreMap K) (rd : Nat × D) : ScoreMap K :=
  addScore m (dumps rd.2) (1 / ((rd.1 : ℚ) + k))

/-- The inner loop `for rank, doc in enumerate(docs): ...`. -/
def processDocs (dumps : D → K) (k : ℚ) (m : ScoreMap K) (docs : List D) : ScoreMap K :=
  docs.enum.foldl (step dumps k) m

/-- The score-accumulation phase of `reciprocal_rank_fusion`:
`for docs in results: for rank, doc in enumerate(docs): ...`,
starting from the empty dict `fused_scores = {}`. -/
def fused_scores (dumps : D → K) (k : ℚ) (results : List (List D)) : ScoreMap K :=
  results.foldl (processDocs dumps k) []

/-- Boolean comparison used by `sorted(..., key=lambda x: x[1], reverse=True)`:
`a` may come before `b` exactly when `a`'s score is at least `b`'s. -/
def scoreLE (a b : K × ℚ) : Bool :=
  decide (b.2 ≤ a.2)

/-- The stable descending sort of the score map,
`sorted(fused_scores.items(), key=lambda x: x[1], reverse=True)`. -/
def sortByScoreDesc (m : ScoreMap K) : ScoreMap K :=
  m.mergeSort scoreLE

/-- Model of `reciprocal_rank_fusion` from `src/server/py/rag_fusion.py`:
returns `(loads(doc), score)` pairs sorted by descending score. -/
def reciprocal_rank_fusion_pairs (dumps : D → K) (loads : K → D)
    (results : List (List D)) (k : ℚ) : List (D × ℚ) :=
  (sortByScoreDesc (fused_scores dumps k results)).map (fun p => (loads p.1, p.2))

/-- Model of `reciprocal_rank_fusion` from `src/server/py/reciprocal_rank_fusion.py`:
returns `loads(doc)` only, sorted by descending score. -/
def reciprocal_rank_fusion_docs (dumps : D → K) (loads : K → D)
    (results : List (List D)) (k : ℚ) : List D :=
  (sortByScoreDesc (fused_scores dumps k results)).map (fun p => loads p.1)

/-! ### Basic lemmas about the score map -/

@[simp] theorem keys_nil : keys ([] : ScoreMap K) = [] := rfl

@[simp] theorem keys_cons (p : K × ℚ) (m : ScoreMap K) :
    keys (p :: m) = p.1 :: keys m := rfl

@[simp] theorem keys_append (m₁ m₂ : ScoreMap K) :
    keys (m₁ ++ m₂) = keys m₁ ++ keys m₂ := by
  simp [keys]

theorem getScore_eq_none_iff (m : ScoreMap K) (key : K) :
    getScore m key = none ↔ key ∉ keys m := by
  induction m with
  | nil => simp [getScore]
  | cons p rest ih =>
    obtain ⟨k, v⟩ := p
    by_cases hk : k = key
    · simp [getScore, hk]
    · simp [getScore, hk, ih, Ne.symm hk]

theorem isSome_getScore_iff (m : ScoreMap K) (key : K) :
    (getScore m key).isSome ↔ key ∈ keys m := by
  rw [Option.isSome_iff_ne_none, ne_eq, getScore_eq_none_iff]
  exact not_not

/-- The in-place update half of `addScore`, modelling
`fused_scores[doc_str] += c` on a map already holding `doc_str`. -/
def updateAdd : ScoreMap K → K → ℚ → ScoreMap K
  | [], _, _ => []
  | (k, v) :: rest, key, c =>
      if k = key then (k, v + c) :: updateAdd rest key c
      else (k, v) :: updateAdd rest key c

theorem updateAdd_eq_map (m : ScoreMap K) (key : K) (c : ℚ) :
    updateAdd m key c = m.map (fun p => if p.1 = key then (p.1, p.2 + c) else p) := by
  induction m with
  | nil => rfl
  | cons p rest ih =>
    obtain ⟨k, v⟩ := p
    by_cases hk : k = key <;> simp [updateAdd, hk, ih]

theorem addScore_eq_updateAdd (m : ScoreMap K) (key : K) (c : ℚ) :
    addScore m key c =
      updateAdd (if key ∈ keys m then m else m ++ [(key, 0)]) key c := by
  rw [addScore, updateAdd_eq_map]

theorem getScore_updateAdd_self (m : ScoreMap K) (key : K) (c : ℚ) :
    getScore (updateAdd m key c) key = (getScore m key).map (· + c) := by
  induction m with
  | nil => rfl
  | cons p rest ih =>
    obtain ⟨k, v⟩ := p
    by_cases hk : k = key <;> simp [updateAdd, getScore, hk, ih]

theorem getScore_updateAdd_ne (m : ScoreMap K) (key key' : K) (c : ℚ)
    (h : key' ≠ key) :
    getScore (updateAdd m key c) key' = getScore m key' := by
  induction m with
  | nil => rfl
  | cons p rest ih =>
    obtain ⟨k, v⟩ := p
    by_cases hk : k = key
    · subst hk
      simp [updateAdd, getScore, Ne.symm h, ih]
    · by_cases hk' : k = key' <;> simp [updateAdd, getScore, hk, hk', h, ih]

theorem keys_updateAdd (m : ScoreMap K) (key : K) (c : ℚ) :
    keys (updateAdd m key c) = keys m := by
  induction m with
  | nil => rfl
  | cons p rest ih =>
    obtain ⟨k, v⟩ := p
    by_cases hk : k = key <;> simp [updateAdd, hk, ih]

theorem getScore_append (m₁ m₂ : ScoreMap K) (key : K) :
    getScore (m₁ ++ m₂) key =
      match getScore m₁ key with
      | some v => some v
      | none => getScore m₂ key := by
  induction m₁ with
  | nil => simp [getScore]
  | cons p rest ih =>
    obtain ⟨k, v⟩ := p
    by_cases hk : k = key <;> simp [getScore, hk] at ih ⊢
    exact ih

theorem score0_addScore_self (m : ScoreMap K) (key : K) (c : ℚ) :
    score0 (addScore m key c) key = score0 m key + c := by
  rw [addScore_eq_updateAdd]
  by_cases hmem : key ∈ keys m
  · rw [if_pos hmem]
    have hsome : (getScore m key).isSome := (isSome_getScore_iff m key).mpr hmem
    obtain ⟨v, hv⟩ := Option.isSome_iff_exists.mp hsome
    simp [score0, getScore_updateAdd_self, hv]
  · rw [if_neg hmem]
    have hnone : getScore m key = none := (getScore_eq_none_iff m key).mpr hmem
    simp [score0, getScore_updateAdd_self, getScore_append, hnone, getScore]

theorem getScore_addScore_ne (m : ScoreMap K) (key key' : K) (c : ℚ)
    (h : key' ≠ key) :
    getScore (addScore m key c) key' = getScore m key' := by
  rw [addScore_eq_updateAdd, getScore_updateAdd_ne _ _ _ _ h]
  by_cases hmem : key ∈ keys m
  · rw [if_pos hmem]
  · rw [if_neg hmem, getScore_append]
    cases hg : getScore m key' with
    | some v => rfl
    | none => simp [getScore, Ne.symm h]

theorem score0_addScore_ne (m : ScoreMap K) (key key' : K) (c : ℚ)
    (h : key' ≠ key) :
    score0 (addScore m key c) key' = score0 m key' := by
  simp [score0, getScore_addScore_ne _ _ _ _ h]

/-- Inserting one key in first-seen order: the effect of `addScore` on the
key sequence of the dict. -/
def insKey (acc : List K) (a : K) : List K :=
  if a ∈ acc then acc else acc ++ [a]

theorem keys_addScore (m : ScoreMap K) (key : K) (c : ℚ) :
    keys (addScore m key c) = insKey (keys m) key := by
  rw [addScore_eq_updateAdd, keys_updateAdd, insKey]
  by_cases hmem : key ∈ keys m
  · rw [if_pos hmem, if_pos hmem]
  · rw [if_neg hmem, if_neg hmem]
    simp [keys]

/-! ### The inner loop as an explicit recursion on the rank counter -/

/-- The inner loop of `reciprocal_rank_fusion` with the running rank made
explicit: processing `docs` whose first element sits at rank `n`. -/
def processFrom (dumps : D → K) (k : ℚ) : Nat → ScoreMap K → List D → ScoreMap K
  | _, m, [] => m
  | n, m, d :: ds => processFrom dumps k (n + 1) (step dumps k m (n, d)) ds

theorem enumFrom_foldl_eq_processFrom (dumps : D → K) (k : ℚ) :
    ∀ (docs : List D) (n : Nat) (m : ScoreMap K),
      (docs.enumFrom n).foldl (step dumps k) m = processFrom dumps k n m docs
  | [], _, _ => rfl
  | d :: ds, n, m => by
    simp only [List.enumFrom_cons, List.foldl_cons, processFrom]
    exact enumFrom_foldl_eq_processFrom dumps k ds (n + 1) (step dumps k m (n, d))

theorem processDocs_eq_processFrom (dumps : D → K) (k : ℚ)
    (m : ScoreMap K) (docs : List D) :
    processDocs dumps k m docs = processFrom dumps k 0 m docs := by
  rw [processDocs, List.enum, enumFrom_foldl_eq_processFrom]

/-! ### Spec-side contribution sums

These definitions follow the spec's words: the fused score of a canonical
key is the sum of `1 / (rank + k)` over every position at which a document
with that key occurs in any input list. -/

/-- Sum of the reciprocal-rank contributions of `key` inside one list whose
first element sits at rank `n`. -/
def contribsFrom (dumps : D → K) (k : ℚ) (key : K) : Nat → List D → ℚ
  | _, [] => 0
  | n, d :: ds =>
      (if dumps d = key then 1 / ((n : ℚ) + k) else 0) +
        contribsFrom dumps k key (n + 1) ds

/-- Total reciprocal-rank contribution of `key` over all input lists,
each list enumerated from rank `0`. -/
def keyContribs (dumps : D → K) (k : ℚ) (results : List (List D)) (key : K) : ℚ :=
  (results.map (contribsFrom dumps k key 0)).sum

theorem score0_processFrom (dumps : D → K) (k : ℚ) (key : K) :
    ∀ (docs : List D) (n : Nat) (m : ScoreMap K),
      score0 (processFrom dumps k n m docs) key =
        score0 m key + contribsFrom dumps k key n docs
  | [], n, m => by simp [processFrom, contribsFrom]
  | d :: ds, n, m => by
    rw [processFrom, score0_processFrom dumps k key ds (n + 1), contribsFrom]
    by_cases hd : dumps d = key
    · rw [if_pos hd, step, hd, score0_addScore_self]
      ring
    · rw [if_neg hd, step, score0_addScore_ne _ _ _ _ (fun h => hd h.symm)]
      ring

theorem score0_foldl_processDocs (dumps : D → K) (k : ℚ) (key : K) :
    ∀ (results : List (List D)) (m : ScoreMap K),
      score0 (results.foldl (processDocs dumps k) m) key =
        score0 m key + (results.map (contribsFrom dumps k key 0)).sum
  | [], m => by simp
  | docs :: rest, m => by
    rw [List.foldl_cons, score0_foldl_processDocs dumps k key rest,
      processDocs_eq_processFrom, score0_processFrom, List.map_cons, List.sum_cons]
    ring

/-- The accumulated score of every key is exactly the spec's sum of
reciprocal-rank contributions. -/
theorem score0_fused_scores (dumps : D → K) (k : ℚ)
    (results : List (List D)) (key : K) :
    score0 (fused_scores dumps k results) key = keyContribs dumps k results key := by
  rw [fused_scores, keyContribs, score0_foldl_processDocs]
  simp [score0, getScore]

/-! ### The key sequence of the accumulated map -/

theorem keys_processFrom (dumps : D → K) (k : ℚ) :
    ∀ (docs : List D) (n : Nat) (m : ScoreMap K),
      keys (processFrom dumps k n m docs) = (docs.map dumps).foldl insKey (keys m)
  | [], _, _ => rfl
  | d :: ds, n, m => by
    rw [processFrom, keys_processFrom dumps k ds (n + 1), List.map_cons,
      List.foldl_cons, step, keys_addScore]

theorem keys_foldl_processDocs (dumps : D → K) (k : ℚ) :
    ∀ (results : List (List D)) (m : ScoreMap K),
      keys (results.foldl (processDocs dumps k) m) =
        (results.flatten.map dumps).foldl insKey (keys m)
  | [], m => rfl
  | docs :: rest, m => by
    rw [List.foldl_cons, keys_foldl_processDocs dumps k rest,
      processDocs_eq_processFrom, keys_processFrom, List.flatten_cons,
      List.map_append, List.foldl_append]

/-- The dict's key order is the fold of first-seen insertions over the
flattened input. -/
theorem keys_fused_scores (dumps : D → K) (k : ℚ) (results : List (List D)) :
    keys (fused_scores dumps k results) =
      (results.flatten.map dumps).foldl insKey [] := by
  rw [fused_scores, keys_foldl_processDocs]
  rfl

theorem mem_foldl_insKey (a : K) :
    ∀ (l acc : List K), a ∈ l.foldl insKey acc ↔ a ∈ acc ∨ a ∈ l
  | [], acc => by simp
  | b :: l, acc => by
    rw [List.foldl_cons, mem_foldl_insKey a l, insKey]
    by_cases hb : b ∈ acc
    · rw [if_pos hb]
      constructor
      · rintro (h | h)
        · exact Or.inl h
        · exact Or.inr (List.mem_cons_of_mem b h)
      · rintro (h | h)
        · exact Or.inl h
        · rcases List.mem_cons.mp h with h | h
          · exact Or.inl (h ▸ hb)
          · exact Or.inr h
    · rw [if_neg hb]
      simp [or_assoc, List.mem_cons]

theorem nodup_foldl_insKey :
    ∀ (l acc : List K), acc.Nodup → (l.foldl insKey acc).Nodup
  | [], acc, h => h
  | b :: l, acc, h => by
    rw [List.foldl_cons, insKey]
    by_cases hb : b ∈ acc
    · rw [if_pos hb]
      exact nodup_foldl_insKey l acc h
    · rw [if_neg hb]
      refine nodup_foldl_insKey l (acc ++ [b]) ?_
      simp [List.nodup_append, h, hb]

/-! ### First-seen deduplication -/

/-- Spec-side description of the dict's key order: the flattened key stream
with every key kept only at its first occurrence. -/
def dedupKeepFirst : List K → List K
  | [] => []
  | a :: l => a :: dedupKeepFirst (l.filter (fun b => b ≠ a))
termination_by l => l.length
decreasing_by
  simp only [List.length_cons]
  exact Nat.lt_succ_of_le (List.length_filter_le _ _)

theorem foldl_insKey_eq_dedupKeepFirst :
    ∀ (l acc : List K),
      l.foldl insKey acc = acc ++ dedupKeepFirst (l.filter (fun b => b ∉ acc))
  | [], acc => by simp [dedupKeepFirst]
  | a :: l, acc => by
    rw [List.foldl_cons, insKey]
    by_cases ha : a ∈ acc
    · rw [if_pos ha, foldl_insKey_eq_dedupKeepFirst l acc,
        List.filter_cons_of_neg (by simpa using ha)]
    · rw [if_neg ha, foldl_insKey_eq_dedupKeepFirst l (acc ++ [a]),
        List.filter_cons_of_pos (by simpa using ha), dedupKeepFirst]
      have hfilter : l.filter (fun b => decide (b ∉ acc ++ [a])) =
          (l.filter (fun b => decide (b ∉ acc))).filter (fun b => b ≠ a) := by
        rw [List.filter_filter]
        refine List.filter_congr ?_
        intro b _
        simp [List.mem_append, not_or, Bool.and_comm]
      rw [hfilter]
      simp

/-! ### The descending stable sort -/

theorem scoreLE_trans (a b c : K × ℚ) (h₁ : scoreLE a b) (h₂ : scoreLE b c) :
    scoreLE a c := by
  simp only [scoreLE, decide_eq_true_eq] at h₁ h₂ ⊢
  exact le_trans h₂ h₁

theorem scoreLE_total (a b : K × ℚ) : scoreLE a b || scoreLE b a := by
  simp only [scoreLE, Bool.or_eq_true, decide_eq_true_eq]
  exact le_total b.2 a.2

/-- The sorted map is pairwise non-increasing in the score component. -/
theorem sorted_sortByScoreDesc (m : ScoreMap K) :
    (sortByScoreDesc m).Pairwise (fun a b => b.2 ≤ a.2) := by
  have h := List.sorted_mergeSort scoreLE_trans scoreLE_total m
  exact h.imp (fun hab => by simpa [scoreLE] using hab)

theorem sortByScoreDesc_perm (m : ScoreMap K) : List.Perm (sortByScoreDesc m) m :=
  List.mergeSort_perm m scoreLE

theorem sortByScoreDesc_of_sorted {m : ScoreMap K}
    (h : m.Pairwise (fun a b => b.2 ≤ a.2)) : sortByScoreDesc m = m := by
  refine List.mergeSort_of_sorted (List.Pairwise.imp ?_ h)
  intro a b hab
  simpa [scoreLE] using hab

/-! ### Membership characterizations -/

theorem mem_keys_fused_scores_iff (dumps : D → K) (k : ℚ)
    (results : List (List D)) (key : K) :
    key ∈ keys (fused_scores dumps k results) ↔
      ∃ docs ∈ results, ∃ d ∈ docs, dumps d = key := by
  rw [keys_fused_scores, mem_foldl_insKey]
  simp only [List.not_mem_nil, false_or, List.mem_map, List.mem_flatten]
  constructor
  · rintro ⟨d, ⟨l, hl, hd⟩, hk⟩
    exact ⟨l, hl, d, hd, hk⟩
  · rintro ⟨l, hl, d, hd, hk⟩
    exact ⟨d, ⟨l, hl, hd⟩, hk⟩

theorem nodup_keys_fused_scores (dumps : D → K) (k : ℚ)
    (results : List (List D)) :
    (keys (fused_scores dumps k results)).Nodup := by
  rw [keys_fused_scores]
  exact nodup_foldl_insKey _ [] List.nodup_nil

/-! ### Occurrence ranks and reciprocal-rank sums -/

/-- The multiset of 0-indexed ranks at which `key` occurs in one list whose
first element sits at rank `n`. -/
def occRanksFrom (dumps : D → K) (key : K) : Nat → List D → Multiset ℕ
  | _, [] => 0
  | n, d :: ds =>
      (if dumps d = key then {n} else 0) + occRanksFrom dumps key (n + 1) ds

/-- The multiset of all 0-indexed ranks at which `key` occurs across the
input lists. -/
def occRanks (dumps : D → K) (results : List (List D)) (key : K) : Multiset ℕ :=
  (results.map (occRanksFrom dumps key 0)).sum

/-- The reciprocal-rank-fusion value of a multiset of ranks:
the sum of `1 / (r + k)` over its elements. -/
def rrfSum (k : ℚ) (R : Multiset ℕ) : ℚ :=
  (R.map (fun r : ℕ => 1 / ((r : ℚ) + k))).sum

theorem rrfSum_add (k : ℚ) (A B : Multiset ℕ) :
    rrfSum k (A + B) = rrfSum k A + rrfSum k B := by
  simp [rrfSum]

theorem rrfSum_singleton (k : ℚ) (r : ℕ) :
    rrfSum k ({r} : Multiset ℕ) = 1 / ((r : ℚ) + k) := by
  simp [rrfSum]

theorem contribsFrom_eq_rrfSum (dumps : D → K) (k : ℚ) (key : K) :
    ∀ (docs : List D) (n : Nat),
      contribsFrom dumps k key n docs = rrfSum k (occRanksFrom dumps key n docs)
  | [], n => by simp [contribsFrom, occRanksFrom, rrfSum]
  | d :: ds, n => by
    rw [contribsFrom, occRanksFrom, rrfSum_add,
      contribsFrom_eq_rrfSum dumps k key ds (n + 1)]
    by_cases hd : dumps d = key
    · rw [if_pos hd, if_pos hd, rrfSum_singleton]
    · rw [if_neg hd, if_neg hd]
      simp [rrfSum]

theorem keyContribs_eq_rrfSum (dumps : D → K) (k : ℚ) (key : K) :
    ∀ results : List (List D),
      keyContribs dumps k results key = rrfSum k (occRanks dumps results key)
  | [] => by simp [keyContribs, occRanks, rrfSum]
  | docs :: rest => by
    rw [keyContribs, occRanks, List.map_cons, List.sum_cons, List.map_cons,
      List.sum_cons, rrfSum_add, contribsFrom_eq_rrfSum]
    have := keyContribs_eq_rrfSum dumps k key rest
    rw [keyContribs, occRanks] at this
    rw [this]

theorem rank_term_pos (k : ℚ) (hk : 0 < k) (r : ℕ) : 0 < 1 / ((r : ℚ) + k) := by
  have hr : (0 : ℚ) ≤ (r : ℚ) := Nat.cast_nonneg r
  have : 0 < (r : ℚ) + k := by linarith
  positivity

theorem rrfSum_nonneg (k : ℚ) (hk : 0 < k) (R : Multiset ℕ) : 0 ≤ rrfSum k R := by
  refine Multiset.sum_nonneg ?_
  intro x hx
  obtain ⟨r, _, rfl⟩ := Multiset.mem_map.mp hx
  exact le_of_lt (rank_term_pos k hk r)

theorem rrfSum_le_of_le (k : ℚ) (hk : 0 < k) {S R : Multiset ℕ} (h : S ≤ R) :
    rrfSum k S ≤ rrfSum k R := by
  obtain ⟨T, rfl⟩ := Multiset.le_iff_exists_add.mp h
  rw [rrfSum_add]
  have := rrfSum_nonneg k hk T
  linarith

theorem rrfSum_antitone_of_rel (k : ℚ) (hk : 0 < k) {S R : Multiset ℕ}
    (h : Multiset.Rel (fun r s => r ≤ s) S R) :
    rrfSum k R ≤ rrfSum k S := by
  induction h with
  | zero => exact le_refl _
  | @cons a b s t hab _ ih =>
    have hterm : 1 / ((b : ℚ) + k) ≤ 1 / ((a : ℚ) + k) := by
      have ha : (0 : ℚ) < (a : ℚ) + k := by
        have : (0 : ℚ) ≤ (a : ℚ) := Nat.cast_nonneg a
        linarith
      have hab' : (a : ℚ) + k ≤ (b : ℚ) + k := by
        have : (a : ℚ) ≤ (b : ℚ) := Nat.cast_le.mpr hab
        linarith
      exact one_div_le_one_div_of_le ha hab'
    have hS : rrfSum k (a ::ₘ s) = 1 / ((a : ℚ) + k) + rrfSum k s := by
      simp [rrfSum]
    have hR : rrfSum k (b ::ₘ t) = 1 / ((b : ℚ) + k) + rrfSum k t := by
      simp [rrfSum]
    rw [hS, hR]
    exact add_le_add hterm ih

theorem mem_keys_fused_scores_iff_mem_flat (dumps : D → K) (k : ℚ)
    (results : List (List D)) (key : K) :
    key ∈ keys (fused_scores dumps k results) ↔
      key ∈ results.flatten.map dumps := by
  rw [keys_fused_scores, mem_foldl_insKey]
  simp

/-! ### Processing a list of pairwise fresh keys -/

theorem updateAdd_of_not_mem (m : ScoreMap K) (key : K) (c : ℚ)
    (h : key ∉ keys m) : updateAdd m key c = m := by
  induction m with
  | nil => rfl
  | cons p rest ih =>
    obtain ⟨k, v⟩ := p
    simp only [keys_cons, List.mem_cons, not_or] at h
    rw [updateAdd, if_neg (fun he => h.1 he.symm), ih h.2]

theorem addScore_fresh (m : ScoreMap K) (key : K) (c : ℚ)
    (h : key ∉ keys m) : addScore m key c = m ++ [(key, 0 + c)] := by
  rw [addScore_eq_updateAdd, if_neg h, updateAdd_eq_map, List.map_append,
    ← updateAdd_eq_map, updateAdd_of_not_mem m key c h]
  simp [updateAdd]

/-- Processing a run of documents whose keys are all fresh and pairwise
distinct appends their entries in input order. -/
theorem processFrom_fresh (dumps : D → K) (k : ℚ) :
    ∀ (docs : List D) (n : Nat) (m : ScoreMap K),
      (keys m ++ docs.map dumps).Nodup →
      processFrom dumps k n m docs =
        m ++ (docs.enumFrom n).map
          (fun rd => (dumps rd.2, 0 + 1 / ((rd.1 : ℚ) + k)))
  | [], n, m, _ => by simp [processFrom]
  | d :: ds, n, m, h => by
    have hparts := List.nodup_append.mp h
    have hfresh : dumps d ∉ keys m := by
      intro hmem
      exact hparts.2.2 hmem (by simp)
    rw [processFrom, step, addScore_fresh m (dumps d) _ hfresh,
      processFrom_fresh dumps k ds (n + 1) (m ++ [(dumps d, 0 + 1 / ((n : ℚ) + k))])
        (by simpa [List.append_assoc] using h)]
    simp [List.enumFrom_cons]

theorem fst_ge_of_mem_enumFrom {A : Type} :
    ∀ (l : List A) (n : Nat) (rd : Nat × A), rd ∈ l.enumFrom n → n ≤ rd.1
  | [], _, _, h => by simp at h
  | a :: as, n, rd, h => by
    rcases List.mem_cons.mp (by simpa [List.enumFrom_cons] using h) with h | h
    · rw [h]
    · exact Nat.le_of_succ_le (fst_ge_of_mem_enumFrom as (n + 1) rd h)

/-- The appended single-list entries have strictly decreasing scores. -/
theorem pairwise_gt_enumFrom_map (dumps : D → K) (k : ℚ) (hk : 0 < k) :
    ∀ (docs : List D) (n : Nat),
      (((docs.enumFrom n).map
          (fun rd => (dumps rd.2, 0 + 1 / ((rd.1 : ℚ) + k)))).Pairwise
        (fun a b => b.2 < a.2))
  | [], _ => by simp
  | d :: ds, n => by
    rw [List.enumFrom_cons, List.map_cons]
    refine List.Pairwise.cons ?_ (pairwise_gt_enumFrom_map dumps k hk ds (n + 1))
    intro x hx
    obtain ⟨rd, hrd, rfl⟩ := List.mem_map.mp hx
    have hge : n + 1 ≤ rd.1 := fst_ge_of_mem_enumFrom ds (n + 1) rd hrd
    have h0 : (0 : ℚ) < (n : ℚ) + k := by
      have : (0 : ℚ) ≤ (n : ℚ) := Nat.cast_nonneg n
      linarith
    have hlt : (n : ℚ) + k < (rd.1 : ℚ) + k := by
      have : (n : ℚ) < (rd.1 : ℚ) := by
        exact_mod_cast Nat.lt_of_succ_le hge
      linarith
    have := one_div_lt_one_div_of_lt h0 hlt
    simpa using this

/-! ## Claim theorems -/

/-- C1: for every sequence of ranked lists and every `k > 0`, the fused
score that fusion assigns to each canonical key occurring in the input
equals the sum of `1 / (rank + k)` over every 0-indexed position at which a
document with that key occurs in any input list; in particular, for a
document whose key occurs exactly once, at rank `r`, the fused score is
exactly `1 / (r + k)`. -/
theorem rrf_score_eq_reciprocal_rank_sum (dumps : D → K)
    (results : List (List D)) (k : ℚ) (key : K) (_hk : 0 < k)
    (hocc : ∃ docs ∈ results, ∃ d ∈ docs, dumps d = key) :
    getScore (fused_scores dumps k results) key =
      some (keyContribs dumps k results key) ∧
    ∀ r : ℕ, occRanks dumps results key = {r} →
      keyContribs dumps k results key = 1 / ((r : ℚ) + k) := by
  constructor
  · have hmem := (mem_keys_fused_scores_iff dumps k results key).mpr hocc
    obtain ⟨v, hv⟩ := Option.isSome_iff_exists.mp ((isSome_getScore_iff _ _).mpr hmem)
    have hs := score0_fused_scores dumps k results key
    rw [score0, hv, Option.getD_some] at hs
    rw [hv, hs]
  · intro r hr
    rw [keyContribs_eq_rrfSum, hr, rrfSum_singleton]

/-- C1 witness: one list `[7]`, `k = 60`; the key `7` occurs (at rank 0)
and the theorem applies. -/
theorem rrf_score_eq_reciprocal_rank_sum_witness :
    getScore (fused_scores (id : ℕ → ℕ) 60 [[7]]) 7 =
      some (keyContribs (id : ℕ → ℕ) 60 [[7]] 7) :=
  (rrf_score_eq_reciprocal_rank_sum (id : ℕ → ℕ) [[7]] 60 7 (by norm_num)
    ⟨[7], by simp, 7, by simp, rfl⟩).1

/-- C2: the key sequence of the fused output has no duplicates, its members
are exactly the canonical keys occurring in the input lists, the output
length is the number of distinct canonical keys of the flattened input, and
an empty sequence of lists yields an empty fused result.  (Output documents
are the deserializations `loads key` of those keys, in the same order, see
`reciprocal_rank_fusion_docs`.) -/
theorem rrf_output_complete (dumps : D → K) (loads : K → D)
    (results : List (List D)) (k : ℚ) :
    (keys (sortByScoreDesc (fused_scores dumps k results))).Nodup ∧
    (∀ key : K, key ∈ keys (sortByScoreDesc (fused_scores dumps k results)) ↔
      ∃ docs ∈ results, ∃ d ∈ docs, dumps d = key) ∧
    (reciprocal_rank_fusion_docs dumps loads results k).length =
      (results.flatten.map dumps).toFinset.card ∧
    reciprocal_rank_fusion_docs dumps loads [] k = [] := by
  have hperm : List.Perm (keys (sortByScoreDesc (fused_scores dumps k results)))
      (keys (fused_scores dumps k results)) :=
    (sortByScoreDesc_perm (fused_scores dumps k results)).map Prod.fst
  refine ⟨hperm.nodup_iff.mpr (nodup_keys_fused_scores dumps k results), ?_, ?_, ?_⟩
  · intro key
    rw [hperm.mem_iff, mem_keys_fused_scores_iff]
  · have hlen : (reciprocal_rank_fusion_docs dumps loads results k).length =
        (keys (fused_scores dumps k results)).length := by
      rw [reciprocal_rank_fusion_docs, List.length_map, keys, List.length_map,
        (sortByScoreDesc_perm (fused_scores dumps k results)).length_eq]
    have hfin : (keys (fused_scores dumps k results)).toFinset =
        (results.flatten.map dumps).toFinset := by
      refine Finset.ext fun a => ?_
      simp only [List.mem_toFinset]
      exact mem_keys_fused_scores_iff_mem_flat dumps k results a
    rw [hlen, ← List.toFinset_card_of_nodup (nodup_keys_fused_scores dumps k results),
      hfin]
  · simp [reciprocal_rank_fusion_docs, sortByScoreDesc, fused_scores]

/-- C3: the fused output (in its `(document, score)` form) is sorted by
non-increasing accumulated score: each adjacent pair has the earlier score
at least the later score. -/
theorem rrf_output_sorted_desc (dumps : D → K) (loads : K → D)
    (results : List (List D)) (k : ℚ) :
    (reciprocal_rank_fusion_pairs dumps loads results k).Chain'
      (fun a b => b.2 ≤ a.2) := by
  have h := (sorted_sortByScoreDesc (fused_scores dumps k results)).chain'
  rw [reciprocal_rank_fusion_pairs, List.chain'_map]
  exact h

/-- C5: the documents-only fuser is the first projection of the
pair-returning fuser; the two result shapes share the identical fusion and
tie-break logic. -/
theorem rrf_docs_eq_pairs_projection (dumps : D → K) (loads : K → D)
    (results : List (List D)) (k : ℚ) :
    reciprocal_rank_fusion_docs dumps loads results k =
      (reciprocal_rank_fusion_pairs dumps loads results k).map Prod.fst := by
  rw [reciprocal_rank_fusion_docs, reciprocal_rank_fusion_pairs, List.map_map]
  rfl

/-- C6: fusing a single ranked list whose documents have pairwise-distinct
canonical keys (and survive the serialize/deserialize round trip) yields the
input order back, with strictly decreasing scores, since `1 / (r + k)` is
strictly decreasing in `r` for `k > 0`. -/
theorem rrf_single_list_preserves_order (dumps : D → K) (loads : K → D)
    (docs : List D) (k : ℚ) (hk : 0 < k) (hnd : (docs.map dumps).Nodup)
    (hrt : ∀ d ∈ docs, loads (dumps d) = d) :
    reciprocal_rank_fusion_docs dumps loads [docs] k = docs ∧
    (reciprocal_rank_fusion_pairs dumps loads [docs] k).Chain'
      (fun a b => b.2 < a.2) := by
  have hfused : fused_scores dumps k [docs] =
      (docs.enumFrom 0).map (fun rd => (dumps rd.2, 0 + 1 / ((rd.1 : ℚ) + k))) := by
    rw [fused_scores, List.foldl_cons, List.foldl_nil, processDocs_eq_processFrom]
    exact processFrom_fresh dumps k docs 0 [] (by simpa using hnd)
  have hpw := pairwise_gt_enumFrom_map dumps k hk docs 0
  have hsorted : sortByScoreDesc (fused_scores dumps k [docs]) =
      fused_scores dumps k [docs] := by
    rw [hfused]
    exact sortByScoreDesc_of_sorted (hpw.imp le_of_lt)
  constructor
  · rw [reciprocal_rank_fusion_docs, hsorted, hfused, List.map_map]
    have h1 : (docs.enumFrom 0).map
        ((fun p : K × ℚ => loads p.1) ∘
          (fun rd : Nat × D => (dumps rd.2, 0 + 1 / ((rd.1 : ℚ) + k)))) =
        ((docs.enumFrom 0).map Prod.snd).map (fun d => loads (dumps d)) := by
      rw [List.map_map]
      rfl
    rw [h1, List.enumFrom_map_snd]
    calc docs.map (fun d => loads (dumps d))
        = docs.map id := List.map_congr_left (fun d hd => hrt d hd)
      _ = docs := List.map_id docs
  · rw [reciprocal_rank_fusion_pairs, hsorted, hfused, List.chain'_map]
    exact hpw.chain'

/-- C6 witness: the single list `[10, 20, 30]` with identity serialization
and `k = 60` comes back in input order. -/
theorem rrf_single_list_preserves_order_witness :
    reciprocal_rank_fusion_docs (id : ℕ → ℕ) id [[10, 20, 30]] 60 =
      [10, 20, 30] :=
  (rrf_single_list_preserves_order (id : ℕ → ℕ) id [10, 20, 30] 60
    (by norm_num) (by decide) (fun d _ => rfl)).1

theorem score0_fused_eq_rrfSum (dumps : D → K) (k : ℚ)
    (results : List (List D)) (key : K) :
    score0 (fused_scores dumps k results) key =
      rrfSum k (occRanks dumps results key) := by
  rw [score0_fused_scores, keyContribs_eq_rrfSum]

/-- C7: fused scores are monotone in occurrences and ranks.  If the rank
multiset of `key₁` in `results₁` contains a sub-multiset `S` that dominates
the rank multiset of `key₂` in `results₂` elementwise (every rank in `S` is
at most its partner, i.e. `key₁`'s occurrences arise from `key₂`'s by adding
occurrences and/or lowering rank numbers), then `key₁`'s accumulated fused
score is at least `key₂`'s. -/
theorem rrf_score_monotone (dumps : D → K) (k : ℚ)
    (results₁ results₂ : List (List D)) (key₁ key₂ : K) (S : Multiset ℕ)
    (hk : 0 < k)
    (hsub : S ≤ occRanks dumps results₁ key₁)
    (hrel : Multiset.Rel (fun r s => r ≤ s) S (occRanks dumps results₂ key₂)) :
    score0 (fused_scores dumps k results₂) key₂ ≤
      score0 (fused_scores dumps k results₁) key₁ := by
  rw [score0_fused_eq_rrfSum, score0_fused_eq_rrfSum]
  exact le_trans (rrfSum_antitone_of_rel k hk hrel) (rrfSum_le_of_le k hk hsub)

/-- C7 witness: key `0` occurring twice at rank 0 scores at least as high
as key `0` occurring once at rank 1. -/
theorem rrf_score_monotone_witness :
    score0 (fused_scores (id : ℕ → ℕ) 60 [[1, 0]]) 0 ≤
      score0 (fused_scores (id : ℕ → ℕ) 60 [[0], [0]]) 0 :=
  rrf_score_monotone (id : ℕ → ℕ) 60 [[0], [0]] [[1, 0]] 0 0 {0}
    (by norm_num)
    (by
      have h : occRanks (id : ℕ → ℕ) [[0], [0]] 0 = 0 ::ₘ {0} := by
        simp [occRanks, occRanksFrom]
      rw [h]
      exact Multiset.le_cons_self _ _)
    (by
      have h : occRanks (id : ℕ → ℕ) [[1, 0]] 0 = {1} := by
        simp [occRanks, occRanksFrom]
      rw [h]
      exact Multiset.Rel.cons (Nat.zero_le 1) Multiset.Rel.zero)

/-- C8 counterexample: in the concrete scenario with documents `A = 0`,
`B = 1`, `C = 2`, `D = 3`, lists `[A, B, C]` and `[B, A, D]` and `k = 60`,
the fused score of `D` is NOT `1/61` (it is `1/62`: `D` sits at 0-indexed
rank 2 of the second list). -/
theorem rrf_concrete_scenario_cex :
    ¬ getScore (fused_scores (id : ℕ → ℕ) 60 [[0, 1, 2], [1, 0, 3]]) 3 =
        some ((1 : ℚ) / 61) := by
  have h : fused_scores (id : ℕ → ℕ) 60 [[0, 1, 2], [1, 0, 3]] =
      [(0, 1/60 + 1/61), (1, 1/61 + 1/60), (2, 1/62), (3, 1/62)] := by
    norm_num [fused_scores, processDocs, step, addScore, keys,
      List.enum, List.enumFrom]
  rw [h]
  norm_num [getScore]

/-- C8 amended: with `A = 0`, `B = 1`, `C = 2`, `D = 3`, the scores are
`A = 1/60 + 1/61`, `B = 1/61 + 1/60` (equal to `A`), `C = 1/62` and
`D = 1/62` (equal to `C`), and the output order is `A, B, C, D`: the tied
pairs `{A, B}` and `{C, D}` are each emitted in first-seen order by the
stable descending sort. -/
theorem rrf_concrete_scenario_amended :
    reciprocal_rank_fusion_pairs (id : ℕ → ℕ) id [[0, 1, 2], [1, 0, 3]] 60 =
      [(0, 1/60 + 1/61), (1, 1/61 + 1/60), (2, 1/62), (3, 1/62)] ∧
    reciprocal_rank_fusion_docs (id : ℕ → ℕ) id [[0, 1, 2], [1, 0, 3]] 60 =
      [0, 1, 2, 3] := by
  have h : fused_scores (id : ℕ → ℕ) 60 [[0, 1, 2], [1, 0, 3]] =
      [(0, 1/60 + 1/61), (1, 1/61 + 1/60), (2, 1/62), (3, 1/62)] := by
    norm_num [fused_scores, processDocs, step, addScore, keys,
      List.enum, List.enumFrom]
  have hsorted : sortByScoreDesc
      ([(0, 1/60 + 1/61), (1, 1/61 + 1/60), (2, 1/62), (3, 1/62)] :
        ScoreMap ℕ) =
      [(0, 1/60 + 1/61), (1, 1/61 + 1/60), (2, 1/62), (3, 1/62)] := by
    refine sortByScoreDesc_of_sorted ?_
    norm_num
  constructor
  · rw [reciprocal_rank_fusion_pairs, h, hsorted]
    rfl
  · rw [reciprocal_rank_fusion_docs, h, hsorted]
    rfl

/-- C9: the tie-break is first-seen order.  The accumulated map lists keys
in order of first occurrence in the flattened input, and the stable
descending sort keeps any two equal-scored entries in that map order, so
the output ordering is a deterministic function of the input. -/
theorem rrf_tie_break_first_seen (dumps : D → K) (k : ℚ)
    (results : List (List D)) :
    keys (fused_scores dumps k results) =
      dedupKeepFirst (results.flatten.map dumps) ∧
    ∀ a b : K × ℚ, List.Sublist [a, b] (fused_scores dumps k results) →
      a.2 = b.2 →
      List.Sublist [a, b] (sortByScoreDesc (fused_scores dumps k results)) := by
  constructor
  · rw [keys_fused_scores, foldl_insKey_eq_dedupKeepFirst, List.nil_append]
    congr 1
    refine List.filter_eq_self.mpr ?_
    intro a _
    simp
  · intro a b hsub heq
    refine List.sublist_mergeSort scoreLE_trans scoreLE_total ?_ hsub
    refine List.pairwise_cons.mpr ⟨?_, List.pairwise_singleton _ _⟩
    intro b' hb'
    rw [List.mem_singleton] at hb'
    subst hb'
    simp [scoreLE, heq]

/-- C9 witness: keys `1` and `2` both score `1/60`; they stay in first-seen
order through the sort. -/
theorem rrf_tie_break_first_seen_witness :
    List.Sublist [((1 : ℕ), (1 : ℚ)/60), (2, 1/60)]
      (sortByScoreDesc (fused_scores (id : ℕ → ℕ) 60 [[1], [2]])) := by
  have h : fused_scores (id : ℕ → ℕ) 60 [[1], [2]] =
      [(1, 1/60), (2, 1/60)] := by
    norm_num [fused_scores, processDocs, step, addScore, keys,
      List.enum, List.enumFrom]
  exact (rrf_tie_break_first_seen (id : ℕ → ℕ) 60 [[1], [2]]).2
    (1, 1/60) (2, 1/60) (by rw [h]) rfl

/-- The first occurrence, in the flattened input, of a document whose
canonical serialization is `key`. -/
def firstOcc (dumps : D → K) (results : List (List D)) (key : K) : Option D :=
  results.flatten.find? (fun d => decide (dumps d = key))

/-- C10: every document emitted by the fuser is `loads (dumps d)` for `d`
the first-encountered occurrence of its key in the flattened input; in
particular, whenever `d` survives the round trip (`loads (dumps d) = d`),
the emitted representative equals that first occurrence.  (The embedding is
a pure function of the input lists, which are never mutated.) -/
theorem rrf_representative_round_trip (dumps : D → K) (loads : K → D)
    (results : List (List D)) (k : ℚ) :
    ∀ d' ∈ reciprocal_rank_fusion_docs dumps loads results k,
      ∃ key d, firstOcc dumps results key = some d ∧ dumps d = key ∧
        d' = loads (dumps d) ∧ (loads (dumps d) = d → d' = d) := by
  intro d' hd'
  rw [reciprocal_rank_fusion_docs] at hd'
  obtain ⟨p, hp, rfl⟩ := List.mem_map.mp hd'
  have hpm : p ∈ fused_scores dumps k results :=
    (sortByScoreDesc_perm _).mem_iff.mp hp
  have hkey : p.1 ∈ keys (fused_scores dumps k results) :=
    List.mem_map_of_mem Prod.fst hpm
  have hflat : p.1 ∈ results.flatten.map dumps :=
    (mem_keys_fused_scores_iff_mem_flat dumps k results p.1).mp hkey
  obtain ⟨d₀, hd₀, hdk⟩ := List.mem_map.mp hflat
  have hsome : (results.flatten.find? (fun d => decide (dumps d = p.1))).isSome := by
    rw [List.find?_isSome]
    exact ⟨d₀, hd₀, by simp [hdk]⟩
  obtain ⟨d, hd⟩ := Option.isSome_iff_exists.mp hsome
  have hpd : dumps d = p.1 := by simpa using List.find?_some hd
  refine ⟨p.1, d, hd, hpd, ?_, ?_⟩
  · rw [hpd]
  · intro hround
    rw [← hpd]
    exact hround.symm ▸ rfl

/-- C10 witness: the single document `5` (identity serialization) is its
own first occurrence and round-trips unchanged. -/
theorem rrf_representative_round_trip_witness :
    ∃ key d, firstOcc (id : ℕ → ℕ) [[5]] key = some d ∧ id d = key ∧
      (5 : ℕ) = id (id d) ∧ (id (id d) = d → (5 : ℕ) = d) := by
  have h : fused_scores (id : ℕ → ℕ) 60 [[5]] = [(5, 1/60)] := by
    norm_num [fused_scores, processDocs, step, addScore, keys,
      List.enum, List.enumFrom]
  refine rrf_representative_round_trip (id : ℕ → ℕ) id [[5]] 60 5 ?_
  simp [reciprocal_rank_fusion_docs, sortByScoreDesc, h]

/-! ### The `main` entry point of `reciprocal_rank_fusion.py`

`main` reads JSON from stdin, checks only `isinstance(input_data, list)`
(raising `ValueError("Input must be a list of result lists")` otherwise),
and hands the decoded value straight to `reciprocal_rank_fusion`. -/

/-- JSON-like values, as produced by `json.loads` in `main`. -/
inductive PyVal where
  | null
  | bool (b : Bool)
  | num (q : ℚ)
  | str (s : String)
  | arr (elems : List PyVal)
  | obj (fields : List (String × PyVal))

mutual

/-- Model of the external canonical serialization `langchain.load.dumps`
restricted to JSON-like values: a deterministic JSON-style encoding used
only as a dict key. -/
def pyDumps : PyVal → String
  | .null => "null"
  | .bool true => "true"
  | .bool false => "false"
  | .num q => toString q
  | .str s => "\"" ++ s ++ "\""
  | .arr xs => "[" ++ pyDumpsList xs ++ "]"
  | .obj fs => "\x7b" ++ pyDumpsFields fs ++ "\x7d"

def pyDumpsList : List PyVal → String
  | [] => ""
  | [v] => pyDumps v
  | v :: vs => pyDumps v ++ ", " ++ pyDumpsList vs

def pyDumpsFields : List (String × PyVal) → String
  | [] => ""
  | [(key, v)] => "\"" ++ key ++ "\": " ++ pyDumps v
  | (key, v) :: fs => "\"" ++ key ++ "\": " ++ pyDumps v ++ ", " ++ pyDumpsFields fs

end

/-- Python iteration semantics of `enumerate(docs)`: lists iterate over
their elements, strings over their characters (yielding 1-character
strings), dicts over their keys; numbers, booleans and `None` raise
`TypeError`. -/
def pyIterate : PyVal → Except String (List PyVal)
  | .arr xs => .ok xs
  | .str s => .ok (s.toList.map (fun c => .str (String.mk [c])))
  | .obj fs => .ok (fs.map (fun f => .str f.1))
  | _ => .error "TypeError: object is not iterable"

/-- Model of `main` in `src/server/py/reciprocal_rank_fusion.py`, up to the
final `loads` projection and JSON printing: after `json.loads`, `main`
raises `ValueError` unless `isinstance(input_data, list)`, then
`reciprocal_rank_fusion(input_data)` iterates each element with `enumerate`
(Python iteration semantics) and fuses with `k = 60`, producing the sorted
`(doc_str, score)` items.  The subsequent `loads(doc_str)` is total on
strings produced by `dumps`, so the success/error behaviour of `main` is
fully determined by this function. -/
def rrf_main (input : PyVal) : Except String (List (String × ℚ)) :=
  match input with
  | .arr results => do
      let lists ← results.mapM pyIterate
      pure (sortByScoreDesc (fused_scores pyDumps 60 lists))
  | _ => .error "Input must be a list of result lists"

/-- C4 evidence: the flat list `["A", "B"]` — documents passed directly
instead of a list of ranked lists — is NOT rejected.  `main`'s only check,
`isinstance(input_data, list)`, accepts it; each string document is then
iterated character-wise by `enumerate`, and fusion succeeds, scoring the
1-character strings instead of failing with `InvalidInput`. -/
theorem rrf_main_accepts_flat_document_list :
    rrf_main (PyVal.arr [PyVal.str "A", PyVal.str "B"]) =
      Except.ok [("\"A\"", 1/60), ("\"B\"", 1/60)] := by
  have hiter : ([PyVal.str "A", PyVal.str "B"]).mapM pyIterate =
      Except.ok [[PyVal.str "A"], [PyVal.str "B"]] := rfl
  have hfused : fused_scores pyDumps 60 [[PyVal.str "A"], [PyVal.str "B"]] =
      [("\"A\"", 1/60), ("\"B\"", 1/60)] := by
    simp [fused_scores, processDocs, step, addScore, keys, pyDumps,
      List.enum, List.enumFrom]
  have hsorted : sortByScoreDesc
      ([("\"A\"", 1/60), ("\"B\"", 1/60)] : ScoreMap String) =
      [("\"A\"", 1/60), ("\"B\"", 1/60)] := by
    refine sortByScoreDesc_of_sorted ?_
    norm_num
  rw [rrf_main]
  rw [show (do
      let lists ← ([PyVal.str "A", PyVal.str "B"]).mapM pyIterate
      pure (sortByScoreDesc (fused_scores pyDumps 60 lists)) :
      Except String (List (String × ℚ))) =
    Except.ok (sortByScoreDesc (fused_scores pyDumps 60
      [[PyVal.str "A"], [PyVal.str "B"]])) from by rw [hiter]; rfl]
  rw [hfused, hsorted]

end RRF
